import Mathlib

/-!
Shallow embedding of `mguid::Trie` (src/include/Trie/Trie.hpp).

The C++ code is a header-only generic trie: `TrieNode<PrefixEltType, ValueType>`
holds a `character`, an `std::optional` vector of children, and an
`std::optional` value; `Trie` owns a root node (constructed with the sentinel
character `'\0'`) and a `std::size_t m_size`.  All operations walk from the
root along the key's element path, scanning children linearly with
`std::find_if` on `child.character == ch`.

In this embedding, keys are `List α` (the C++ code iterates the key
element-by-element), in-place mutation becomes rebuilding of the node on the
path, and `m_size` is a `Nat` (the `++m_size` / `--m_size` updates are modelled
as `+ 1` / `- 1`; the decrement is applied by the source only when a stored
value was just removed, and every theorem below that touches it carries the
size invariant under which `m_size ≥ 1` holds at that point, where `Nat`
subtraction agrees with `std::size_t`).
-/

set_option autoImplicit false

namespace MguidTrie

/-- Embeds `TrieNode<PrefixEltType, ValueType>`: one `character`, an optional
children vector (`opt_children`: `none` = never allocated, `some []` =
allocated but empty — the distinction the erase pruning condition tests), and
an optional stored value (`opt_value`). -/
inductive TrieNode (α β : Type) : Type where
  | mk (character : α) (opt_children : Option (List (TrieNode α β))) (opt_value : Option β)

variable {α β : Type}

def TrieNode.character : TrieNode α β → α
  | .mk c _ _ => c

def TrieNode.opt_children : TrieNode α β → Option (List (TrieNode α β))
  | .mk _ cs _ => cs

def TrieNode.opt_value : TrieNode α β → Option β
  | .mk _ _ v => v

/-- The predicate of the `std::find_if` lambdas: `child.character == ch`. -/
def matchesChar [DecidableEq α] (ch : α) (c : TrieNode α β) : Bool :=
  decide (c.character = ch)

/-- In-place overwrite of the first child found by `std::find_if`
(`*it` is mutated by the recursive calls): replace the first element whose
`character` equals `ch` by `c'`. -/
def replaceFirstBy [DecidableEq α] (ch : α) (c' : TrieNode α β) :
    List (TrieNode α β) → List (TrieNode α β)
  | [] => []
  | c :: cs => if c.character = ch then c' :: cs else c :: replaceFirstBy ch c' cs

/-- `children.erase(it)` where `it` is the first child whose `character`
equals `ch`: drop the first matching element. -/
def removeFirstBy [DecidableEq α] (ch : α) :
    List (TrieNode α β) → List (TrieNode α β)
  | [] => []
  | c :: cs => if c.character = ch then cs else c :: removeFirstBy ch cs

/-- Embeds `Trie<PrefixEltType, ValueType>`: the root node and `m_size`. -/
structure Trie (α β : Type) : Type where
  m_root : TrieNode α β
  m_size : Nat

/-- Embeds the constructor `Trie() : m_root('\0'), m_size(0)`; the sentinel
root element is passed explicitly (`'\0'` at the concrete type `char`). -/
def Trie.mkEmpty (sentinel : α) : Trie α β :=
  ⟨.mk sentinel none none, 0⟩

/-- Embeds `Trie::find_node` (walks `key`; at each element, if the current
node's `opt_children` is disengaged return `nullptr`, otherwise `find_if` a
child by character, returning `nullptr` when absent). -/
def find_node [DecidableEq α] (node : TrieNode α β) : List α → Option (TrieNode α β)
  | [] => some node
  | ch :: rest =>
    match node.opt_children with
    | none => none
    | some children =>
      match children.find? (matchesChar ch) with
      | none => none
      | some child => find_node child rest

/-- Embeds `Trie::find_or_insert` on a node: walks the key, engaging
`opt_children` (to empty) where disengaged, appending a fresh node
(`children.emplace_back(elt)`) where the `find_if` fails, and descending into
the found/created child otherwise; at the end, default-constructs the value if
absent.  Returns (reference result `*current_node->opt_value`, updated node,
whether a value was created — the source increments `m_size` exactly then). -/
def find_or_insert_node [DecidableEq α] [Inhabited β] (node : TrieNode α β) :
    List α → β × TrieNode α β × Bool
  | [] =>
    match node with
    | .mk c cs v =>
      match v with
      | some w => (w, .mk c cs (some w), false)
      | none => ((default : β), .mk c cs (some (default : β)), true)
  | ch :: rest =>
    match node with
    | .mk c ocs v =>
      let children := ocs.getD []
      match children.find? (matchesChar ch) with
      | none =>
        let r := find_or_insert_node (TrieNode.mk ch none none) rest
        (r.1, .mk c (some (children ++ [r.2.1])) v, r.2.2)
      | some child =>
        let r := find_or_insert_node child rest
        (r.1, .mk c (some (replaceFirstBy ch r.2.1 children)) v, r.2.2)

/-- Embeds `Trie::operator[]`: `return find_or_insert(key);` together with the
`m_size` increment performed inside `find_or_insert`. -/
def Trie.subscript [DecidableEq α] [Inhabited β] (t : Trie α β) (key : List α) :
    β × Trie α β :=
  let r := find_or_insert_node t.m_root key
  (r.1, ⟨r.2.1, if r.2.2 then t.m_size + 1 else t.m_size⟩)

/-- Embeds the path-walk of `Trie::insert(kv)` on a node: identical to
`find_or_insert`'s walk, but at the terminal node, stores `kv.second` only if
no value is present.  Returns ((stored value the returned pointer designates,
`inserted` flag), updated node). -/
def insert_node [DecidableEq α] (node : TrieNode α β) (v : β) :
    List α → (β × Bool) × TrieNode α β
  | [] =>
    match node with
    | .mk c cs ov =>
      match ov with
      | some w => ((w, false), .mk c cs (some w))
      | none => ((v, true), .mk c cs (some v))
  | ch :: rest =>
    match node with
    | .mk c ocs ov =>
      let children := ocs.getD []
      match children.find? (matchesChar ch) with
      | none =>
        let r := insert_node (TrieNode.mk ch none none) v rest
        (r.1, .mk c (some (children ++ [r.2])) ov)
      | some child =>
        let r := insert_node child v rest
        (r.1, .mk c (some (replaceFirstBy ch r.2 children)) ov)

/-- Embeds `Trie::insert(std::pair<key,value>)`, with its `++m_size` when the
insertion happened. -/
def Trie.insertKV [DecidableEq α] (t : Trie α β) (kv : List α × β) :
    (β × Bool) × Trie α β :=
  let r := insert_node t.m_root kv.2 kv.1
  (r.1, ⟨r.2, if r.1.2 then t.m_size + 1 else t.m_size⟩)

/-- Embeds `Trie::contains`: `find_node(key) != nullptr` — node existence
only; the stored value is not consulted. -/
def Trie.contains [DecidableEq α] (t : Trie α β) (key : List α) : Bool :=
  (find_node t.m_root key).isSome

/-- Embeds `Trie::find`: the value pointer when the node exists and carries a
value, `nullptr` (here `none`) otherwise. -/
def Trie.find [DecidableEq α] (t : Trie α β) (key : List α) : Option β :=
  match find_node t.m_root key with
  | some n => n.opt_value
  | none => none

/-- Embeds `Trie::at`: throws `std::out_of_range("Key not found in Trie")`
when `find_node` fails or the node has no value; otherwise returns the value.
`Trie::at` only reads through `find_node` (no mutation), so it is a pure
function of the trie here.  Named `atKey` because `at` is a Lean keyword. -/
def Trie.atKey [DecidableEq α] (t : Trie α β) (key : List α) : Except String β :=
  match find_node t.m_root key with
  | none => .error "Key not found in Trie"
  | some n =>
    match n.opt_value with
    | none => .error "Key not found in Trie"
    | some v => .ok v

/-- Embeds `Trie::erase_recursive` on a node.  The C++ recursion mutates the
found child in place and, on success, erases it from the vector when its
`opt_children` is engaged-and-empty and it has no value
(`it->opt_children && it->opt_children->empty() && !it->opt_value`).
Returns (whether a value was removed, updated node); the `--m_size` lives at
`Trie.erase`. -/
def erase_recursive [DecidableEq α] (node : TrieNode α β) :
    List α → Bool × TrieNode α β
  | [] =>
    match node with
    | .mk c cs ov =>
      match ov with
      | some _ => (true, .mk c cs none)
      | none => (false, .mk c cs none)
  | ch :: rest =>
    match node with
    | .mk c ocs ov =>
      match ocs with
      | none => (false, .mk c none ov)
      | some children =>
        match children.find? (matchesChar ch) with
        | none => (false, .mk c (some children) ov)
        | some child =>
          let r := erase_recursive child rest
          if r.1 then
            match r.2.opt_children, r.2.opt_value with
            | some [], none =>
              (true, .mk c (some (removeFirstBy ch (replaceFirstBy ch r.2 children))) ov)
            | _, _ =>
              (true, .mk c (some (replaceFirstBy ch r.2 children)) ov)
          else (false, .mk c (some (replaceFirstBy ch r.2 children)) ov)

/-- Embeds `Trie::erase`: `erase_recursive(m_root, key, 0)` plus the
`--m_size` that the base case performs exactly when it returns true. -/
def Trie.erase [DecidableEq α] (t : Trie α β) (key : List α) : Bool × Trie α β :=
  let r := erase_recursive t.m_root key
  (r.1, ⟨r.2, if r.1 then t.m_size - 1 else t.m_size⟩)

/-- Embeds `Trie::size`. -/
def Trie.size (t : Trie α β) : Nat := t.m_size

/-- Embeds `Trie::clear`: `m_root.opt_children.reset(); m_size = 0;` — the
root's `opt_value` is NOT touched. -/
def Trie.clear (t : Trie α β) : Trie α β :=
  match t.m_root with
  | .mk c _ v => ⟨.mk c none v, 0⟩

mutual

/-- Number of nodes reachable from `n` (itself included) whose `opt_value` is
present — the quantity the spec's size invariant speaks about. -/
def countValues : TrieNode α β → Nat
  | .mk _ ocs ov =>
    (match ov with | some _ => 1 | none => 0) +
    (match ocs with
     | none => 0
     | some cs => countValuesL cs)

/-- `countValues` summed over a children list. -/
def countValuesL : List (TrieNode α β) → Nat
  | [] => 0
  | c :: cs => countValues c + countValuesL cs

end

mutual

/-- There is a "dead" strict descendant below `n`: a reachable non-root node
with no stored value and an absent-or-empty children set — the nodes the
spec's erase pruning is supposed to remove. -/
def hasDeadDesc : TrieNode α β → Bool
  | .mk _ ocs _ =>
    match ocs with
    | none => false
    | some cs => hasDeadDescL cs

/-- `hasDeadDesc` over a children list: some listed child is dead or has a
dead descendant. -/
def hasDeadDescL : List (TrieNode α β) → Bool
  | [] => false
  | c :: cs =>
    (c.opt_value.isNone &&
      (match c.opt_children with
       | none => true
       | some l => l.isEmpty)) || hasDeadDesc c || hasDeadDescL cs

end

mutual

/-- At every node reachable from `n`, the children (when present) carry
pairwise distinct `character` labels — the spec's no-duplicate-labels
invariant (§3), which real tries satisfy because insertion only appends a
child after `find_if` failed. -/
def nodupTree [DecidableEq α] : TrieNode α β → Bool
  | .mk _ ocs _ =>
    match ocs with
    | none => true
    | some cs =>
      decide ((cs.map TrieNode.character).Nodup) && nodupTreeL cs

/-- `nodupTree` over a children list. -/
def nodupTreeL [DecidableEq α] : List (TrieNode α β) → Bool
  | [] => true
  | c :: cs => nodupTree c && nodupTreeL cs

end

/-! ## The traversal cursor

`Trie::iterator` holds a `std::stack` of (node pointer, accumulated prefix)
pairs and a `current_pair`.  `advance()` pops entries, pushing children in
reverse order (so the first child ends on top), until it pops a value-bearing
node, whose (prefix, value) it stores in `current_pair`; `operator==` compares
the stacks only.  `Trie::begin()` and `Trie::end()` both return a
default-constructed `iterator` (the bodies are annotated "Needs to be
implemented"), so a `begin()` iterator has an empty stack and never yields
anything.  The stack is a list whose head is the top. -/

/-- Iterator state: the stack (head = top) and `current_pair`. -/
structure TrieIterator (α β : Type) : Type where
  stack : List (TrieNode α β × List α)
  current_pair : List α × β

/-- One `advance()` call, fuelled (the C++ loop pops until a value-bearing
node surfaces; fuel only bounds that loop, and every run below starts from
the empty stack where no fuel is consumed).  Returns the new state. -/
def advance [Inhabited β] : Nat → TrieIterator α β → TrieIterator α β
  | 0, it => { it with stack := [] }
  | fuel + 1, it =>
    match it.stack with
    | [] => { it with stack := [] }
    | (node, pfx) :: rest =>
      let pushed :=
        match node.opt_children with
        | none => rest
        | some cs => cs.map (fun c => (c, pfx ++ [c.character])) ++ rest
      match node.opt_value with
      | some v => { stack := pushed, current_pair := (pfx, v) }
      | none => advance fuel { it with stack := pushed }

/-- Embeds `Trie::begin()`: `return iterator();` — a default-constructed
iterator (empty stack), NOT one seeded with the root. -/
def Trie.begin [Inhabited α] [Inhabited β] (_t : Trie α β) : TrieIterator α β :=
  ⟨[], ([], default)⟩

/-- Embeds `Trie::end()`: also `return iterator();`. -/
def Trie.endIter [Inhabited α] [Inhabited β] (_t : Trie α β) : TrieIterator α β :=
  ⟨[], ([], default)⟩

/-- The canonical consumption loop `for (it = begin; it != end; ++it)
yield *it;` — `it != end` is the stack-emptiness test, since `end` carries an
empty stack and `operator==` compares stacks. -/
def iterLoop [Inhabited β] (fuel : Nat) (it : TrieIterator α β) :
    List (List α × β) :=
  match fuel with
  | 0 => []
  | f + 1 =>
    match it.stack with
    | [] => []
    | _ :: _ => it.current_pair :: iterLoop f (advance (f + 1) it)

/-! ## Reachable states

Public operations: `operator[]` / `insert` / `erase` / `clear` mutate;
`at`, `find` and `contains` only read through `find_node` (no structural
change, no `m_size` change), so they do not add transitions. -/

/-- Trie states reachable from a freshly constructed trie by the public
operations. -/
inductive Reachable [DecidableEq α] [Inhabited β] (sentinel : α) : Trie α β → Prop where
  | init : Reachable sentinel (Trie.mkEmpty sentinel)
  | subscriptStep {t : Trie α β} (k : List α) :
      Reachable sentinel t → Reachable sentinel (t.subscript k).2
  | insertStep {t : Trie α β} (kv : List α × β) :
      Reachable sentinel t → Reachable sentinel (t.insertKV kv).2
  | eraseStep {t : Trie α β} (k : List α) :
      Reachable sentinel t → Reachable sentinel (t.erase k).2
  | clearStep {t : Trie α β} :
      Reachable sentinel t → Reachable sentinel t.clear

/-- Trie states reachable when every key passed to a public operation is
nonempty (the empty key — which addresses the sentinel root node itself — is
never used). -/
inductive ReachableNE [DecidableEq α] [Inhabited β] (sentinel : α) : Trie α β → Prop where
  | init : ReachableNE sentinel (Trie.mkEmpty sentinel)
  | subscriptStep {t : Trie α β} (k : List α) (hk : k ≠ []) :
      ReachableNE sentinel t → ReachableNE sentinel (t.subscript k).2
  | insertStep {t : Trie α β} (kv : List α × β) (hk : kv.1 ≠ []) :
      ReachableNE sentinel t → ReachableNE sentinel (t.insertKV kv).2
  | eraseStep {t : Trie α β} (k : List α) (hk : k ≠ []) :
      ReachableNE sentinel t → ReachableNE sentinel (t.erase k).2
  | clearStep {t : Trie α β} :
      ReachableNE sentinel t → ReachableNE sentinel t.clear

/-- The stored value at the end of `key`'s path below `n` (what `Trie::find`
returns, at node level): the terminal node's `opt_value`, or `none` when the
path does not exist. -/
def valueAtN [DecidableEq α] (n : TrieNode α β) (key : List α) : Option β :=
  match find_node n key with
  | some m => m.opt_value
  | none => none

/-- Concrete fixture: `Trie<char, ...>` freshly constructed (`m_root('\0')`),
with `Nat` values. -/
def charEmpty : Trie Char Nat := Trie.mkEmpty (Char.ofNat 0)

/-- Concrete fixture for the traversal claim: insert `"a"→1`, `"ab"→2`,
`"b"→3`, in that order, into an empty `Trie<char,int>`. -/
def exTrie3 : Trie Char Nat :=
  (((charEmpty.insertKV (['a'], 1)).2.insertKV (['a', 'b'], 2)).2.insertKV
    (['b'], 3)).2

/-! ## Helper lemmas -/

@[simp]
theorem TrieNode.character_mk (c : α) (ocs : Option (List (TrieNode α β)))
    (ov : Option β) : (TrieNode.mk c ocs ov).character = c := rfl

@[simp]
theorem TrieNode.opt_children_mk (c : α) (ocs : Option (List (TrieNode α β)))
    (ov : Option β) : (TrieNode.mk c ocs ov).opt_children = ocs := rfl

@[simp]
theorem TrieNode.opt_value_mk (c : α) (ocs : Option (List (TrieNode α β)))
    (ov : Option β) : (TrieNode.mk c ocs ov).opt_value = ov := rfl

@[simp]
theorem matchesChar_eq_true [DecidableEq α] (ch : α) (c : TrieNode α β) :
    matchesChar ch c = true ↔ c.character = ch := by
  simp [matchesChar]

@[simp]
theorem countValuesL_nil : countValuesL ([] : List (TrieNode α β)) = 0 := by
  simp [countValuesL]

@[simp]
theorem countValuesL_cons (c : TrieNode α β) (cs : List (TrieNode α β)) :
    countValuesL (c :: cs) = countValues c + countValuesL cs := by
  simp [countValuesL]

theorem countValues_mk (c : α) (ocs : Option (List (TrieNode α β)))
    (ov : Option β) :
    countValues (TrieNode.mk c ocs ov) =
      (match ov with | some _ => 1 | none => 0) +
      (match ocs with | none => 0 | some cs => countValuesL cs) := by
  rw [countValues.eq_def]

theorem countValues_mk_none (c : α) (ov : Option β) :
    countValues (TrieNode.mk c none ov) = (if ov.isSome then 1 else 0) := by
  rw [countValues_mk]
  cases ov <;> simp

theorem countValues_mk_some (c : α) (cs : List (TrieNode α β)) (ov : Option β) :
    countValues (TrieNode.mk c (some cs) ov) =
      (if ov.isSome then 1 else 0) + countValuesL cs := by
  rw [countValues_mk]
  cases ov <;> simp

theorem replaceFirstBy_self [DecidableEq α] (ch : α) (c : TrieNode α β) :
    ∀ cs : List (TrieNode α β), cs.find? (matchesChar ch) = some c →
      replaceFirstBy ch c cs = cs := by
  intro cs
  induction cs with
  | nil => simp
  | cons d cs ih =>
    intro h
    by_cases hd : matchesChar ch d = true
    · rw [List.find?_cons_of_pos _ hd] at h
      cases h
      simp only [replaceFirstBy]
      rw [if_pos (by simpa using hd)]
    · rw [List.find?_cons_of_neg _ hd] at h
      simp only [replaceFirstBy]
      rw [if_neg (by simpa using hd), ih h]

theorem find?_replaceFirstBy [DecidableEq α] (ch : α) (c c' : TrieNode α β)
    (hc' : c'.character = ch) :
    ∀ cs : List (TrieNode α β), cs.find? (matchesChar ch) = some c →
      (replaceFirstBy ch c' cs).find? (matchesChar ch) = some c' := by
  intro cs
  induction cs with
  | nil => simp
  | cons d cs ih =>
    intro h
    by_cases hd : matchesChar ch d = true
    · simp only [replaceFirstBy]
      rw [if_pos (by simpa using hd)]
      exact List.find?_cons_of_pos _ (by simpa using hc')
    · rw [List.find?_cons_of_neg _ hd] at h
      simp only [replaceFirstBy]
      rw [if_neg (by simpa using hd), List.find?_cons_of_neg _ hd]
      exact ih h

theorem countL_replaceFirstBy [DecidableEq α] (ch : α) (c c' : TrieNode α β) :
    ∀ cs : List (TrieNode α β), cs.find? (matchesChar ch) = some c →
      countValuesL (replaceFirstBy ch c' cs) + countValues c =
        countValuesL cs + countValues c' := by
  intro cs
  induction cs with
  | nil => simp
  | cons d cs ih =>
    intro h
    by_cases hd : matchesChar ch d = true
    · rw [List.find?_cons_of_pos _ hd] at h
      cases h
      simp only [replaceFirstBy]
      rw [if_pos (by simpa using hd)]
      simp
      omega
    · rw [List.find?_cons_of_neg _ hd] at h
      simp only [replaceFirstBy]
      rw [if_neg (by simpa using hd)]
      simp only [countValuesL_cons]
      have := ih h
      omega

theorem removeFirstBy_replaceFirstBy [DecidableEq α] (ch : α)
    (c' : TrieNode α β) (hc' : c'.character = ch) :
    ∀ cs : List (TrieNode α β),
      removeFirstBy ch (replaceFirstBy ch c' cs) = removeFirstBy ch cs := by
  intro cs
  induction cs with
  | nil => simp [replaceFirstBy, removeFirstBy]
  | cons d cs ih =>
    by_cases hd : d.character = ch
    · simp only [replaceFirstBy, removeFirstBy]
      rw [if_pos hd]
      simp only [removeFirstBy]
      rw [if_pos hc', if_pos hd]
    · simp only [replaceFirstBy, removeFirstBy]
      rw [if_neg hd]
      simp only [removeFirstBy]
      rw [if_neg hd, if_neg hd, ih]

theorem countL_removeFirstBy [DecidableEq α] (ch : α) (c : TrieNode α β) :
    ∀ cs : List (TrieNode α β), cs.find? (matchesChar ch) = some c →
      countValuesL (removeFirstBy ch cs) + countValues c = countValuesL cs := by
  intro cs
  induction cs with
  | nil => simp
  | cons d cs ih =>
    intro h
    by_cases hd : matchesChar ch d = true
    · rw [List.find?_cons_of_pos _ hd] at h
      cases h
      simp only [removeFirstBy]
      rw [if_pos (by simpa using hd)]
      simp
      omega
    · rw [List.find?_cons_of_neg _ hd] at h
      simp only [removeFirstBy]
      rw [if_neg (by simpa using hd)]
      simp only [countValuesL_cons]
      have := ih h
      omega

theorem find?_removeFirstBy_nodup [DecidableEq α] (ch : α) :
    ∀ cs : List (TrieNode α β), (cs.map TrieNode.character).Nodup →
      (∃ c, cs.find? (matchesChar ch) = some c) →
      (removeFirstBy ch cs).find? (matchesChar ch) = none := by
  intro cs
  induction cs with
  | nil => simp
  | cons d cs ih =>
    intro hnd hex
    simp only [List.map_cons, List.nodup_cons] at hnd
    by_cases hd : d.character = ch
    · simp only [removeFirstBy]
      rw [if_pos hd]
      rw [List.find?_eq_none]
      intro x hx
      simp only [matchesChar_eq_true]
      intro hxch
      exact hnd.1 (by rw [hd, ← hxch]; exact List.mem_map_of_mem _ hx)
    · simp only [removeFirstBy]
      rw [if_neg hd]
      rw [List.find?_cons_of_neg _ (by simpa using hd)]
      apply ih hnd.2
      obtain ⟨c, hc⟩ := hex
      rw [List.find?_cons_of_neg _ (by simpa using hd)] at hc
      exact ⟨c, hc⟩

@[simp]
theorem valueAtN_nil [DecidableEq α] (n : TrieNode α β) :
    valueAtN n [] = n.opt_value := rfl

theorem valueAtN_cons [DecidableEq α] (c : α) (ocs : Option (List (TrieNode α β)))
    (ov : Option β) (ch : α) (rest : List α) :
    valueAtN (TrieNode.mk c ocs ov) (ch :: rest) =
      match ocs with
      | none => none
      | some cs =>
        match cs.find? (matchesChar ch) with
        | none => none
        | some child => valueAtN child rest := by
  cases ocs with
  | none => rfl
  | some cs =>
    simp only [valueAtN, find_node, TrieNode.opt_children_mk]
    cases cs.find? (matchesChar ch) <;> rfl

theorem valueAtN_cons_nochildren [DecidableEq α] (c : α) (ov : Option β)
    (ch : α) (rest : List α) :
    valueAtN (TrieNode.mk c none ov) (ch :: rest) = none := rfl

theorem valueAtN_cons_none [DecidableEq α] (c : α) (cs : List (TrieNode α β))
    (ov : Option β) (ch : α) (rest : List α)
    (hf : cs.find? (matchesChar ch) = none) :
    valueAtN (TrieNode.mk c (some cs) ov) (ch :: rest) = none := by
  rw [valueAtN_cons]
  simp [hf]

theorem valueAtN_cons_some [DecidableEq α] (c : α) (cs : List (TrieNode α β))
    (ov : Option β) (ch : α) (rest : List α) (child : TrieNode α β)
    (hf : cs.find? (matchesChar ch) = some child) :
    valueAtN (TrieNode.mk c (some cs) ov) (ch :: rest) = valueAtN child rest := by
  rw [valueAtN_cons]
  simp [hf]

theorem valueAtN_fresh [DecidableEq α] (ch : α) (rest : List α) :
    valueAtN (TrieNode.mk ch none none : TrieNode α β) rest = none := by
  cases rest with
  | nil => rfl
  | cons a l => rfl

theorem find_node_append [DecidableEq α] (p q : List α) :
    ∀ n : TrieNode α β,
      find_node n (p ++ q) = (find_node n p).bind (fun m => find_node m q) := by
  induction p with
  | nil => intro n; rfl
  | cons ch rest ih =>
    intro n
    obtain ⟨c, ocs, v⟩ := n
    cases ocs with
    | none => rfl
    | some cs =>
      simp only [List.cons_append, find_node, TrieNode.opt_children_mk]
      cases List.find? (matchesChar ch) cs with
      | none => rfl
      | some child => exact ih child

theorem foi_character [DecidableEq α] [Inhabited β] (k : List α)
    (n : TrieNode α β) :
    ((find_or_insert_node n k).2.1).character = n.character := by
  cases k with
  | nil =>
    obtain ⟨c, ocs, v⟩ := n
    cases v <;> simp [find_or_insert_node]
  | cons ch rest =>
    obtain ⟨c, ocs, v⟩ := n
    simp only [find_or_insert_node]
    cases hf : (ocs.getD []).find? (matchesChar ch) <;> simp [hf]

theorem foi_valueAt [DecidableEq α] [Inhabited β] (k : List α)
    (n : TrieNode α β) :
    valueAtN (find_or_insert_node n k).2.1 k =
      some ((find_or_insert_node n k).1) := by
  induction k generalizing n with
  | nil =>
    obtain ⟨c, ocs, v⟩ := n
    cases v <;> simp [find_or_insert_node]
  | cons ch rest ih =>
    obtain ⟨c, ocs, v⟩ := n
    simp only [find_or_insert_node]
    cases hf : (ocs.getD []).find? (matchesChar ch) with
    | none =>
      simp only [hf]
      have hfind : (ocs.getD [] ++
          [(find_or_insert_node (TrieNode.mk ch none none) rest).2.1]).find?
            (matchesChar ch) =
          some (find_or_insert_node (TrieNode.mk ch none none) rest).2.1 := by
        rw [List.find?_append, hf, Option.none_or,
          List.find?_cons_of_pos _ (by simp [foi_character])]
      rw [valueAtN_cons_some _ _ _ _ _ _ hfind]
      exact ih _
    | some child =>
      simp only [hf]
      have hch : child.character = ch := by
        simpa using List.find?_some hf
      have hfind := find?_replaceFirstBy ch child
        (find_or_insert_node child rest).2.1
        (by rw [foi_character]; exact hch) _ hf
      rw [valueAtN_cons_some _ _ _ _ _ _ hfind]
      exact ih _

theorem foi_created_iff [DecidableEq α] [Inhabited β] (k : List α)
    (n : TrieNode α β) :
    (find_or_insert_node n k).2.2 = true ↔ valueAtN n k = none := by
  induction k generalizing n with
  | nil =>
    obtain ⟨c, ocs, v⟩ := n
    cases v <;> simp [find_or_insert_node]
  | cons ch rest ih =>
    obtain ⟨c, ocs, v⟩ := n
    simp only [find_or_insert_node]
    cases ocs with
    | none =>
      simp only [Option.getD_none, List.find?_nil]
      rw [valueAtN_cons_nochildren]
      rw [ih]
      simp [valueAtN_fresh]
    | some cs =>
      simp only [Option.getD_some]
      cases hf : cs.find? (matchesChar ch) with
      | none =>
        simp only [hf]
        rw [valueAtN_cons_none _ _ _ _ _ hf]
        rw [ih]
        simp [valueAtN_fresh]
      | some child =>
        simp only [hf]
        rw [valueAtN_cons_some _ _ _ _ _ _ hf]
        exact ih child

theorem foi_value_of_some [DecidableEq α] [Inhabited β] (k : List α)
    (n : TrieNode α β) (w : β) (h : valueAtN n k = some w) :
    (find_or_insert_node n k).1 = w := by
  induction k generalizing n with
  | nil =>
    obtain ⟨c, ocs, v⟩ := n
    simp only [valueAtN_nil, TrieNode.opt_value_mk] at h
    subst h
    simp [find_or_insert_node]
  | cons ch rest ih =>
    obtain ⟨c, ocs, v⟩ := n
    cases ocs with
    | none => rw [valueAtN_cons_nochildren] at h; exact absurd h (by simp)
    | some cs =>
      cases hf : cs.find? (matchesChar ch) with
      | none =>
        rw [valueAtN_cons_none _ _ _ _ _ hf] at h
        exact absurd h (by simp)
      | some child =>
        rw [valueAtN_cons_some _ _ _ _ _ _ hf] at h
        simp only [find_or_insert_node, Option.getD_some, hf]
        exact ih child h

theorem foi_value_of_none [DecidableEq α] [Inhabited β] (k : List α)
    (n : TrieNode α β) (h : valueAtN n k = none) :
    (find_or_insert_node n k).1 = (default : β) := by
  induction k generalizing n with
  | nil =>
    obtain ⟨c, ocs, v⟩ := n
    simp only [valueAtN_nil, TrieNode.opt_value_mk] at h
    subst h
    simp [find_or_insert_node]
  | cons ch rest ih =>
    obtain ⟨c, ocs, v⟩ := n
    cases ocs with
    | none =>
      simp only [find_or_insert_node, Option.getD_none, List.find?_nil]
      apply ih
      rw [valueAtN_fresh]
    | some cs =>
      cases hf : cs.find? (matchesChar ch) with
      | none =>
        simp only [find_or_insert_node, Option.getD_some, hf]
        apply ih
        rw [valueAtN_fresh]
      | some child =>
        rw [valueAtN_cons_some _ _ _ _ _ _ hf] at h
        simp only [find_or_insert_node, Option.getD_some, hf]
        exact ih child h

theorem countL_append (cs ds : List (TrieNode α β)) :
    countValuesL (cs ++ ds) = countValuesL cs + countValuesL ds := by
  induction cs with
  | nil => simp
  | cons d cs ih => simp [ih]; omega

theorem foi_count [DecidableEq α] [Inhabited β] (k : List α)
    (n : TrieNode α β) :
    countValues (find_or_insert_node n k).2.1 =
      countValues n + (if (find_or_insert_node n k).2.2 then 1 else 0) := by
  induction k generalizing n with
  | nil =>
    obtain ⟨c, ocs, v⟩ := n
    cases v <;> simp [find_or_insert_node, countValues_mk] <;> omega
  | cons ch rest ih =>
    obtain ⟨c, ocs, v⟩ := n
    cases hf : (ocs.getD []).find? (matchesChar ch) with
    | none =>
      simp only [find_or_insert_node, hf]
      rw [countValues_mk_some, countL_append]
      have hcnt := ih (TrieNode.mk ch none none : TrieNode α β)
      rw [countValues_mk_none] at hcnt
      simp only [Option.isSome_none, Bool.false_eq_true, if_false,
        Nat.zero_add] at hcnt
      cases ocs with
      | none =>
        simp only [Option.getD_none, countValuesL_nil, countValuesL_cons,
          countValues_mk_none]
        omega
      | some cs =>
        simp only [Option.getD_some, countValuesL_cons, countValuesL_nil,
          countValues_mk_some]
        omega
    | some child =>
      simp only [find_or_insert_node, hf]
      rw [countValues_mk_some]
      have hrep := countL_replaceFirstBy ch child
        (find_or_insert_node child rest).2.1 (ocs.getD []) hf
      have hcnt := ih child
      cases ocs with
      | none => simp at hf
      | some cs =>
        simp only [Option.getD_some] at hrep
        simp only [Option.getD_some]
        rw [countValues_mk_some]
        omega

theorem foi_root_value [DecidableEq α] [Inhabited β] (ch : α) (rest : List α)
    (n : TrieNode α β) :
    (find_or_insert_node n (ch :: rest)).2.1.opt_value = n.opt_value := by
  obtain ⟨c, ocs, v⟩ := n
  simp only [find_or_insert_node]
  cases hf : (ocs.getD []).find? (matchesChar ch) <;> simp [hf]

theorem ins_character [DecidableEq α] (v : β) (k : List α)
    (n : TrieNode α β) :
    ((insert_node n v k).2).character = n.character := by
  cases k with
  | nil =>
    obtain ⟨c, ocs, ov⟩ := n
    cases ov <;> simp [insert_node]
  | cons ch rest =>
    obtain ⟨c, ocs, ov⟩ := n
    simp only [insert_node]
    cases hf : (ocs.getD []).find? (matchesChar ch) <;> simp [hf]

theorem ins_valueAt [DecidableEq α] (v : β) (k : List α) (n : TrieNode α β) :
    valueAtN (insert_node n v k).2 k = some ((insert_node n v k).1.1) := by
  induction k generalizing n with
  | nil =>
    obtain ⟨c, ocs, ov⟩ := n
    cases ov <;> simp [insert_node]
  | cons ch rest ih =>
    obtain ⟨c, ocs, ov⟩ := n
    simp only [insert_node]
    cases hf : (ocs.getD []).find? (matchesChar ch) with
    | none =>
      simp only [hf]
      have hfind : (ocs.getD [] ++ [(insert_node (TrieNode.mk ch none none) v rest).2]).find?
            (matchesChar ch) =
          some (insert_node (TrieNode.mk ch none none) v rest).2 := by
        rw [List.find?_append, hf, Option.none_or,
          List.find?_cons_of_pos _ (by simp [ins_character])]
      rw [valueAtN_cons_some _ _ _ _ _ _ hfind]
      exact ih _
    | some child =>
      simp only [hf]
      have hch : child.character = ch := by
        simpa using List.find?_some hf
      have hfind := find?_replaceFirstBy ch child
        (insert_node child v rest).2
        (by rw [ins_character]; exact hch) _ hf
      rw [valueAtN_cons_some _ _ _ _ _ _ hfind]
      exact ih _

theorem ins_inserted_iff [DecidableEq α] (v : β) (k : List α)
    (n : TrieNode α β) :
    (insert_node n v k).1.2 = true ↔ valueAtN n k = none := by
  induction k generalizing n with
  | nil =>
    obtain ⟨c, ocs, ov⟩ := n
    cases ov <;> simp [insert_node]
  | cons ch rest ih =>
    obtain ⟨c, ocs, ov⟩ := n
    cases ocs with
    | none =>
      simp only [insert_node, Option.getD_none, List.find?_nil]
      rw [valueAtN_cons_nochildren]
      rw [ih]
      simp [valueAtN_fresh]
    | some cs =>
      cases hf : cs.find? (matchesChar ch) with
      | none =>
        simp only [insert_node, Option.getD_some, hf]
        rw [valueAtN_cons_none _ _ _ _ _ hf]
        rw [ih]
        simp [valueAtN_fresh]
      | some child =>
        simp only [insert_node, Option.getD_some, hf]
        rw [valueAtN_cons_some _ _ _ _ _ _ hf]
        exact ih child

theorem ins_result_of_none [DecidableEq α] (v : β) (k : List α)
    (n : TrieNode α β) (h : valueAtN n k = none) :
    (insert_node n v k).1.1 = v := by
  induction k generalizing n with
  | nil =>
    obtain ⟨c, ocs, ov⟩ := n
    simp only [valueAtN_nil, TrieNode.opt_value_mk] at h
    subst h
    simp [insert_node]
  | cons ch rest ih =>
    obtain ⟨c, ocs, ov⟩ := n
    cases ocs with
    | none =>
      simp only [insert_node, Option.getD_none, List.find?_nil]
      apply ih
      rw [valueAtN_fresh]
    | some cs =>
      cases hf : cs.find? (matchesChar ch) with
      | none =>
        simp only [insert_node, Option.getD_some, hf]
        apply ih
        rw [valueAtN_fresh]
      | some child =>
        rw [valueAtN_cons_some _ _ _ _ _ _ hf] at h
        simp only [insert_node, Option.getD_some, hf]
        exact ih child h

theorem ins_result_of_some [DecidableEq α] (v w : β) (k : List α)
    (n : TrieNode α β) (h : valueAtN n k = some w) :
    (insert_node n v k).1.1 = w := by
  induction k generalizing n with
  | nil =>
    obtain ⟨c, ocs, ov⟩ := n
    simp only [valueAtN_nil, TrieNode.opt_value_mk] at h
    subst h
    simp [insert_node]
  | cons ch rest ih =>
    obtain ⟨c, ocs, ov⟩ := n
    cases ocs with
    | none => rw [valueAtN_cons_nochildren] at h; exact absurd h (by simp)
    | some cs =>
      cases hf : cs.find? (matchesChar ch) with
      | none =>
        rw [valueAtN_cons_none _ _ _ _ _ hf] at h
        exact absurd h (by simp)
      | some child =>
        rw [valueAtN_cons_some _ _ _ _ _ _ hf] at h
        simp only [insert_node, Option.getD_some, hf]
        exact ih child h

theorem ins_count [DecidableEq α] (v : β) (k : List α) (n : TrieNode α β) :
    countValues (insert_node n v k).2 =
      countValues n + (if (insert_node n v k).1.2 then 1 else 0) := by
  induction k generalizing n with
  | nil =>
    obtain ⟨c, ocs, ov⟩ := n
    cases ov <;> simp [insert_node, countValues_mk] <;> omega
  | cons ch rest ih =>
    obtain ⟨c, ocs, ov⟩ := n
    cases hf : (ocs.getD []).find? (matchesChar ch) with
    | none =>
      simp only [insert_node, hf]
      rw [countValues_mk_some, countL_append]
      have hcnt := ih (TrieNode.mk ch none none : TrieNode α β)
      rw [countValues_mk_none] at hcnt
      simp only [Option.isSome_none, Bool.false_eq_true, if_false,
        Nat.zero_add] at hcnt
      cases ocs with
      | none =>
        simp only [Option.getD_none, countValuesL_nil, countValuesL_cons,
          countValues_mk_none]
        omega
      | some cs =>
        simp only [Option.getD_some, countValuesL_cons, countValuesL_nil,
          countValues_mk_some]
        omega
    | some child =>
      simp only [insert_node, hf]
      rw [countValues_mk_some]
      have hrep := countL_replaceFirstBy ch child
        (insert_node child v rest).2 (ocs.getD []) hf
      have hcnt := ih child
      cases ocs with
      | none => simp at hf
      | some cs =>
        simp only [Option.getD_some] at hrep
        simp only [Option.getD_some]
        rw [countValues_mk_some]
        omega

theorem ins_root_value [DecidableEq α] (v : β) (ch : α) (rest : List α)
    (n : TrieNode α β) :
    (insert_node n v (ch :: rest)).2.opt_value = n.opt_value := by
  obtain ⟨c, ocs, ov⟩ := n
  simp only [insert_node]
  cases hf : (ocs.getD []).find? (matchesChar ch) <;> simp [hf]

theorem nodupTree_mk (c : α) [DecidableEq α] (ocs : Option (List (TrieNode α β)))
    (ov : Option β) :
    nodupTree (TrieNode.mk c ocs ov) =
      match ocs with
      | none => true
      | some cs => decide ((cs.map TrieNode.character).Nodup) && nodupTreeL cs := by
  rw [nodupTree.eq_def]

@[simp]
theorem nodupTree_mk_none [DecidableEq α] (c : α) (ov : Option β) :
    nodupTree (TrieNode.mk c none ov : TrieNode α β) = true := by
  rw [nodupTree_mk]

theorem nodupTree_mk_some [DecidableEq α] (c : α) (cs : List (TrieNode α β))
    (ov : Option β) :
    nodupTree (TrieNode.mk c (some cs) ov) =
      (decide ((cs.map TrieNode.character).Nodup) && nodupTreeL cs) := by
  rw [nodupTree_mk]

@[simp]
theorem nodupTreeL_nil [DecidableEq α] :
    nodupTreeL ([] : List (TrieNode α β)) = true := by
  rw [nodupTreeL.eq_def]

@[simp]
theorem nodupTreeL_cons [DecidableEq α] (c : TrieNode α β)
    (cs : List (TrieNode α β)) :
    nodupTreeL (c :: cs) = (nodupTree c && nodupTreeL cs) := by
  rw [nodupTreeL.eq_def]

theorem nodupTreeL_mem [DecidableEq α] (cs : List (TrieNode α β))
    (hl : nodupTreeL cs = true) (child : TrieNode α β) (hm : child ∈ cs) :
    nodupTree child = true := by
  induction cs with
  | nil => simp at hm
  | cons d ds ih =>
    simp only [nodupTreeL_cons, Bool.and_eq_true] at hl
    rcases List.mem_cons.mp hm with h | h
    · subst h; exact hl.1
    · exact ih hl.2 h

theorem er_character [DecidableEq α] (k : List α) (n : TrieNode α β) :
    (erase_recursive n k).2.character = n.character := by
  cases k with
  | nil =>
    obtain ⟨c, ocs, ov⟩ := n
    cases ov <;> simp [erase_recursive]
  | cons ch rest =>
    obtain ⟨c, ocs, ov⟩ := n
    cases ocs with
    | none => simp [erase_recursive]
    | some cs =>
      cases hf : cs.find? (matchesChar ch) with
      | none => simp [erase_recursive, hf]
      | some child =>
        rcases hr : erase_recursive child rest with ⟨b, rn⟩
        obtain ⟨c2, oc2, ov2⟩ := rn
        cases b with
        | false => simp [erase_recursive, hf, hr]
        | true =>
          rcases oc2 with _ | l
          · simp [erase_recursive, hf, hr]
          · rcases l with _ | ⟨d, ds⟩
            · rcases ov2 with _ | w
              · simp [erase_recursive, hf, hr]
              · simp [erase_recursive, hf, hr]
            · simp [erase_recursive, hf, hr]

theorem er_root_value [DecidableEq α] (ch : α) (rest : List α)
    (n : TrieNode α β) :
    (erase_recursive n (ch :: rest)).2.opt_value = n.opt_value := by
  obtain ⟨c, ocs, ov⟩ := n
  cases ocs with
  | none => simp [erase_recursive]
  | some cs =>
    cases hf : cs.find? (matchesChar ch) with
    | none => simp [erase_recursive, hf]
    | some child =>
      rcases hr : erase_recursive child rest with ⟨b, rn⟩
      obtain ⟨c2, oc2, ov2⟩ := rn
      cases b with
      | false => simp [erase_recursive, hf, hr]
      | true =>
        rcases oc2 with _ | l
        · simp [erase_recursive, hf, hr]
        · rcases l with _ | ⟨d, ds⟩
          · rcases ov2 with _ | w
            · simp [erase_recursive, hf, hr]
            · simp [erase_recursive, hf, hr]
          · simp [erase_recursive, hf, hr]

theorem er_fst [DecidableEq α] (ch : α) (rest : List α) (c : α)
    (cs : List (TrieNode α β)) (ov : Option β) (child : TrieNode α β)
    (hf : cs.find? (matchesChar ch) = some child) :
    (erase_recursive (TrieNode.mk c (some cs) ov) (ch :: rest)).1 =
      (erase_recursive child rest).1 := by
  rcases hr : erase_recursive child rest with ⟨b, rn⟩
  obtain ⟨c2, oc2, ov2⟩ := rn
  cases b with
  | false => simp [erase_recursive, hf, hr]
  | true =>
    rcases oc2 with _ | l
    · simp [erase_recursive, hf, hr]
    · rcases l with _ | ⟨d, ds⟩
      · rcases ov2 with _ | w
        · simp [erase_recursive, hf, hr]
        · simp [erase_recursive, hf, hr]
      · simp [erase_recursive, hf, hr]

theorem er_ok_iff [DecidableEq α] (k : List α) (n : TrieNode α β) :
    (erase_recursive n k).1 = true ↔ (valueAtN n k).isSome = true := by
  induction k generalizing n with
  | nil =>
    obtain ⟨c, ocs, ov⟩ := n
    cases ov <;> simp [erase_recursive]
  | cons ch rest ih =>
    obtain ⟨c, ocs, ov⟩ := n
    cases ocs with
    | none => simp [erase_recursive, valueAtN_cons_nochildren]
    | some cs =>
      cases hf : cs.find? (matchesChar ch) with
      | none =>
        rw [valueAtN_cons_none _ _ _ _ _ hf]
        simp [erase_recursive, hf]
      | some child =>
        rw [valueAtN_cons_some _ _ _ _ _ _ hf, er_fst ch rest c cs ov child hf]
        exact ih child

theorem er_false_eq [DecidableEq α] (k : List α) (n : TrieNode α β)
    (h : (erase_recursive n k).1 = false) : (erase_recursive n k).2 = n := by
  induction k generalizing n with
  | nil =>
    obtain ⟨c, ocs, ov⟩ := n
    cases ov with
    | none => simp [erase_recursive]
    | some w => simp [erase_recursive] at h
  | cons ch rest ih =>
    obtain ⟨c, ocs, ov⟩ := n
    cases ocs with
    | none => simp [erase_recursive]
    | some cs =>
      cases hf : cs.find? (matchesChar ch) with
      | none => simp [erase_recursive, hf]
      | some child =>
        rw [er_fst ch rest c cs ov child hf] at h
        have hchild : (erase_recursive child rest).2 = child := ih child h
        rcases hr : erase_recursive child rest with ⟨b, rn⟩
        rw [hr] at h hchild
        simp only at h hchild
        subst h
        simp only [erase_recursive, hf, hr, Bool.false_eq_true, if_false]
        rw [hchild, replaceFirstBy_self ch child cs hf]

theorem er_count_of_true [DecidableEq α] (k : List α) (n : TrieNode α β)
    (h : (erase_recursive n k).1 = true) :
    countValues n = countValues (erase_recursive n k).2 + 1 := by
  induction k generalizing n with
  | nil =>
    obtain ⟨c, ocs, ov⟩ := n
    cases ov with
    | none => simp [erase_recursive] at h
    | some w =>
      simp only [erase_recursive]
      rw [countValues_mk, countValues_mk]
      simp only
      omega
  | cons ch rest ih =>
    obtain ⟨c, ocs, ov⟩ := n
    cases ocs with
    | none => simp [erase_recursive] at h
    | some cs =>
      cases hf : cs.find? (matchesChar ch) with
      | none => simp [erase_recursive, hf] at h
      | some child =>
        rw [er_fst ch rest c cs ov child hf] at h
        have hcnt := ih child h
        have hchar : (erase_recursive child rest).2.character = ch := by
          rw [er_character]
          simpa using List.find?_some hf
        rcases hr : erase_recursive child rest with ⟨b, rn⟩
        rw [hr] at h hcnt hchar
        simp only at h hcnt hchar
        subst h
        obtain ⟨c2, oc2, ov2⟩ := rn
        rcases oc2 with _ | l
        · simp only [erase_recursive, hf, hr, TrieNode.opt_children_mk,
            TrieNode.opt_value_mk, if_true]
          rw [countValues_mk_some, countValues_mk_some]
          have hrep := countL_replaceFirstBy ch child
            (TrieNode.mk c2 none ov2) cs hf
          omega
        · rcases l with _ | ⟨d, ds⟩
          · rcases ov2 with _ | w
            · simp only [erase_recursive, hf, hr, TrieNode.opt_children_mk,
            TrieNode.opt_value_mk, if_true]
              rw [removeFirstBy_replaceFirstBy ch _ hchar cs]
              rw [countValues_mk_some, countValues_mk_some]
              have hrem := countL_removeFirstBy ch child cs hf
              have hz : countValues (TrieNode.mk c2 (some ([] : List (TrieNode α β))) none) = 0 := by
                rw [countValues_mk_some]
                simp
              rw [hz] at hcnt
              omega
            · simp only [erase_recursive, hf, hr, TrieNode.opt_children_mk,
            TrieNode.opt_value_mk, if_true]
              rw [countValues_mk_some, countValues_mk_some]
              have hrep := countL_replaceFirstBy ch child
                (TrieNode.mk c2 (some ([] : List (TrieNode α β))) (some w)) cs hf
              omega
          · simp only [erase_recursive, hf, hr, TrieNode.opt_children_mk,
            TrieNode.opt_value_mk, if_true]
            rw [countValues_mk_some, countValues_mk_some]
            have hrep := countL_replaceFirstBy ch child
              (TrieNode.mk c2 (some (d :: ds)) ov2) cs hf
            omega

theorem er_valueAt_none [DecidableEq α] (k : List α) (n : TrieNode α β)
    (hnd : nodupTree n = true) :
    valueAtN (erase_recursive n k).2 k = none := by
  induction k generalizing n with
  | nil =>
    obtain ⟨c, ocs, ov⟩ := n
    cases ov <;> simp [erase_recursive]
  | cons ch rest ih =>
    obtain ⟨c, ocs, ov⟩ := n
    cases ocs with
    | none => simp [erase_recursive, valueAtN_cons_nochildren]
    | some cs =>
      rw [nodupTree_mk_some, Bool.and_eq_true] at hnd
      cases hf : cs.find? (matchesChar ch) with
      | none =>
        simp only [erase_recursive, hf]
        exact valueAtN_cons_none _ _ _ _ _ hf
      | some child =>
        have hchar : (erase_recursive child rest).2.character = ch := by
          rw [er_character]
          simpa using List.find?_some hf
        have hndchild : nodupTree child = true :=
          nodupTreeL_mem cs hnd.2 child (List.mem_of_find?_eq_some hf)
        have hihchild := ih child hndchild
        rcases hb : (erase_recursive child rest).1 with _ | _
        · have hchild : (erase_recursive child rest).2 = child :=
            er_false_eq rest child hb
          have hnoval : (valueAtN child rest).isSome = false := by
            rcases hv : (valueAtN child rest).isSome with _ | _
            · rfl
            · exact absurd ((er_ok_iff rest child).mpr hv) (by rw [hb]; simp)
          rcases hr : erase_recursive child rest with ⟨b, rn⟩
          rw [hr] at hb hchild
          simp only at hb hchild
          subst hb
          simp only [erase_recursive, hf, hr, Bool.false_eq_true, if_false]
          rw [hchild, replaceFirstBy_self ch child cs hf]
          rw [valueAtN_cons_some _ _ _ _ _ _ hf]
          cases hv2 : valueAtN child rest with
          | none => rfl
          | some w => rw [hv2] at hnoval; simp at hnoval
        · rcases hr : erase_recursive child rest with ⟨b, rn⟩
          rw [hr] at hb hchar hihchild
          simp only at hb hchar hihchild
          subst hb
          obtain ⟨c2, oc2, ov2⟩ := rn
          rcases oc2 with _ | l
          · simp only [erase_recursive, hf, hr, TrieNode.opt_children_mk,
            TrieNode.opt_value_mk, if_true]
            have hfind := find?_replaceFirstBy ch child
              (TrieNode.mk c2 none ov2) hchar cs hf
            rw [valueAtN_cons_some _ _ _ _ _ _ hfind]
            exact hihchild
          · rcases l with _ | ⟨d, ds⟩
            · rcases ov2 with _ | w
              · simp only [erase_recursive, hf, hr, TrieNode.opt_children_mk,
            TrieNode.opt_value_mk, if_true]
                rw [removeFirstBy_replaceFirstBy ch _ hchar cs]
                exact valueAtN_cons_none _ _ _ _ _
                  (find?_removeFirstBy_nodup ch cs (of_decide_eq_true hnd.1)
                    ⟨child, hf⟩)
              · simp only [erase_recursive, hf, hr, TrieNode.opt_children_mk,
            TrieNode.opt_value_mk, if_true]
                have hfind := find?_replaceFirstBy ch child
                  (TrieNode.mk c2 (some ([] : List (TrieNode α β))) (some w)) hchar cs hf
                rw [valueAtN_cons_some _ _ _ _ _ _ hfind]
                exact hihchild
            · simp only [erase_recursive, hf, hr, TrieNode.opt_children_mk,
            TrieNode.opt_value_mk, if_true]
              have hfind := find?_replaceFirstBy ch child
                (TrieNode.mk c2 (some (d :: ds)) ov2) hchar cs hf
              rw [valueAtN_cons_some _ _ _ _ _ _ hfind]
              exact hihchild

theorem find_node_isSome_of_valueAtN [DecidableEq α] (n : TrieNode α β)
    (k : List α) (w : β) (h : valueAtN n k = some w) :
    (find_node n k).isSome = true := by
  unfold valueAtN at h
  cases hfn : find_node n k with
  | none => rw [hfn] at h; exact absurd h (by simp)
  | some m => simp [hfn]

/-- The spec's size invariant, plus the root-carries-no-value property, holds
in every state reachable with nonempty keys. -/
theorem reachableNE_inv [DecidableEq α] [Inhabited β] (s0 : α) (t : Trie α β)
    (h : ReachableNE s0 t) :
    t.m_size = countValues t.m_root ∧ t.m_root.opt_value = none := by
  induction h with
  | init =>
    constructor
    · show (0 : Nat) = countValues (TrieNode.mk s0 none none)
      rw [countValues_mk_none]
      rfl
    · rfl
  | subscriptStep k hk a ih =>
    rename_i t2
    obtain ⟨ih1, ih2⟩ := ih
    constructor
    · simp only [Trie.subscript]
      rw [foi_count, ← ih1]
      cases hcr : (find_or_insert_node t2.m_root k).2.2 <;> simp [hcr]
    · obtain ⟨ch, rest, rfl⟩ := List.exists_cons_of_ne_nil hk
      simp only [Trie.subscript]
      rw [foi_root_value]
      exact ih2
  | insertStep kv hk a ih =>
    rename_i t2
    obtain ⟨ih1, ih2⟩ := ih
    constructor
    · simp only [Trie.insertKV]
      rw [ins_count, ← ih1]
      cases hcr : (insert_node t2.m_root kv.2 kv.1).1.2 <;> simp [hcr]
    · obtain ⟨ch, rest, hrl⟩ := List.exists_cons_of_ne_nil hk
      simp only [Trie.insertKV, hrl]
      rw [ins_root_value]
      exact ih2
  | eraseStep k hk a ih =>
    rename_i t2
    obtain ⟨ih1, ih2⟩ := ih
    constructor
    · simp only [Trie.erase]
      cases hb : (erase_recursive t2.m_root k).1 with
      | false =>
        rw [er_false_eq _ _ hb]
        simp [hb, ih1]
      | true =>
        have hc := er_count_of_true k t2.m_root hb
        simp only [hb, if_true]
        omega
    · obtain ⟨ch, rest, rfl⟩ := List.exists_cons_of_ne_nil hk
      simp only [Trie.erase]
      rw [er_root_value]
      exact ih2
  | clearStep a ih =>
    obtain ⟨ih1, ih2⟩ := ih
    rename_i t2
    obtain ⟨⟨c, ocs, ov⟩, sz⟩ := t2
    simp only [TrieNode.opt_value_mk] at ih2
    subst ih2
    constructor
    · show (0 : Nat) = countValues (TrieNode.mk c none none)
      rw [countValues_mk_none]
      rfl
    · rfl

theorem find_eq_valueAtN [DecidableEq α] (t : Trie α β) (k : List α) :
    t.find k = valueAtN t.m_root k := by
  unfold Trie.find valueAtN
  cases find_node t.m_root k <;> rfl

/-! ## Claim theorems -/

/-- C1, counterexample to the claim as stated: `contains` does not require a
stored value.  After `trie["ab"]` alone, `contains("a")` is true although no
value is stored at `"a"`; and after `trie["a"]; erase("a")`, `contains("a")`
is still true (the valueless leaf is not pruned), contradicting both halves of
the claim at these concrete inputs. -/
theorem C1_counterexample :
    Trie.contains (charEmpty.subscript ['a', 'b']).2 ['a'] = true ∧
    Trie.find (charEmpty.subscript ['a', 'b']).2 ['a'] = none ∧
    (((charEmpty.subscript ['a']).2.erase ['a']).2).contains ['a'] = true :=
  ⟨rfl, rfl, rfl⟩

/-- C1 (amended): `contains(k)` is true iff a node exists at the full element
path of `k`, regardless of whether that node carries a stored value;
consequently `erase(k)` followed by `contains(k)` may remain true, but
`erase(k)` followed by `find(k)` always yields no value (in any trie whose
children carry pairwise distinct labels, as all tries built by the public
operations do). -/
theorem C1_contains_is_node_existence [DecidableEq α] (t : Trie α β)
    (k : List α) (hnd : nodupTree t.m_root = true) :
    (t.contains k = true ↔ (find_node t.m_root k).isSome = true) ∧
    Trie.find (t.erase k).2 k = none := by
  refine ⟨Iff.rfl, ?_⟩
  rw [find_eq_valueAtN]
  exact er_valueAt_none k t.m_root hnd

theorem C1_contains_is_node_existence_witness :
    nodupTree exTrie3.m_root = true ∧
    ((exTrie3.contains ['a', 'b'] = true ↔
        (find_node exTrie3.m_root ['a', 'b']).isSome = true) ∧
      Trie.find (exTrie3.erase ['a', 'b']).2 ['a', 'b'] = none) :=
  ⟨by decide, C1_contains_is_node_existence exTrie3 ['a', 'b'] (by decide)⟩

/-- C2, evaluation at the failing input: insert `"a"` into an empty trie and
erase it.  The erase succeeds, yet the node for `'a'` — no value, children
never allocated — remains reachable from the root: the pruning condition
`it->opt_children && it->opt_children->empty()` is false for a leaf whose
`opt_children` was never engaged, so `children.erase(it)` never runs. -/
theorem C2_erase_leaves_dead_node :
    ((charEmpty.insertKV (['a'], 0)).2.erase ['a']).1 = true ∧
    hasDeadDesc (((charEmpty.insertKV (['a'], 0)).2.erase ['a']).2).m_root =
      true :=
  ⟨rfl, rfl⟩

/-- C3, evaluation at the failing input: after inserting `"a"→1`, `"ab"→2`,
`"b"→3`, iterating from `begin()` to `end()` yields the empty sequence — both
return a default-constructed iterator (their bodies say "Needs to be
implemented"), so the loop body never runs — not the three stored pairs the
claim requires. -/
theorem C3_iteration_yields_nothing :
    exTrie3.begin = exTrie3.endIter ∧
    (∀ fuel : Nat, iterLoop fuel exTrie3.begin = []) ∧
    ([(['a'], 1), (['a', 'b'], 2), (['b'], 3)] : List (List Char × Nat)) ≠
      [] := by
  refine ⟨rfl, ?_, by simp⟩
  intro fuel
  cases fuel <;> rfl

/-- C4, counterexample to the claim as stated: the state reached by
`trie[""]; clear()` is reachable by public operations, yet `size()` is `0`
while one reachable node (the root, which received a value from the
empty-key subscript that `clear` does not reset) has a present value. -/
theorem C4_counterexample :
    Reachable (Char.ofNat 0) ((charEmpty.subscript []).2.clear) ∧
    ((charEmpty.subscript []).2.clear).m_size = 0 ∧
    countValues ((charEmpty.subscript []).2.clear).m_root = 1 :=
  ⟨Reachable.clearStep (Reachable.subscriptStep [] Reachable.init), rfl, rfl⟩

/-- C4 (amended): in every trie state reachable from the empty trie by public
operations that are only ever passed nonempty keys, `size()` equals the
number of nodes reachable from the root whose value is present. -/
theorem C4_size_invariant_nonempty_keys [DecidableEq α] [Inhabited β]
    (s0 : α) (t : Trie α β) (h : ReachableNE s0 t) :
    t.m_size = countValues t.m_root :=
  (reachableNE_inv s0 t h).1

theorem C4_size_invariant_nonempty_keys_witness :
    ReachableNE (Char.ofNat 0) (charEmpty.subscript ['a']).2 ∧
    (charEmpty.subscript ['a']).2.m_size =
      countValues (charEmpty.subscript ['a']).2.m_root :=
  ⟨ReachableNE.subscriptStep ['a'] (by decide) ReachableNE.init,
   C4_size_invariant_nonempty_keys (Char.ofNat 0) _
     (ReachableNE.subscriptStep ['a'] (by decide) ReachableNE.init)⟩

/-- C5, counterexample to the claim as stated: insert the empty key (a public
operation), then `clear()`.  `size()` is `0`, but `contains` of that
previously inserted key is still true — the empty key's path is the root
itself, which `clear` keeps. -/
theorem C5_counterexample :
    (charEmpty.insertKV ([], 5)).1.2 = true ∧
    ((charEmpty.insertKV ([], 5)).2.clear).m_size = 0 ∧
    ((charEmpty.insertKV ([], 5)).2.clear).contains [] = true :=
  ⟨rfl, rfl, rfl⟩

/-- C5 (amended): after `clear()`, `size()` is `0` and `contains(k)` is false
for every nonempty key `k` — in particular every nonempty previously-inserted
key; only the empty key (the root's own path) remains contained. -/
theorem C5_clear_resets [DecidableEq α] (t : Trie α β) (k : List α)
    (hk : k ≠ []) :
    t.clear.m_size = 0 ∧ t.clear.contains k = false := by
  obtain ⟨⟨c, ocs, ov⟩, sz⟩ := t
  obtain ⟨ch, rest, rfl⟩ := List.exists_cons_of_ne_nil hk
  exact ⟨rfl, rfl⟩

theorem C5_clear_resets_witness :
    (['a'] : List Char) ≠ [] ∧
    (exTrie3.clear.m_size = 0 ∧ exTrie3.clear.contains ['a'] = false) :=
  ⟨by decide, C5_clear_resets exTrie3 ['a'] (by decide)⟩

/-- C6 (confirmed): in any state satisfying the size invariant and the
distinct-child-labels invariant, `erase(k)` returns true iff a value is
stored at `k`; on success `size` decreases by exactly one; on failure the
trie is entirely unchanged; and an immediate second `erase(k)` returns false
and leaves `size` unchanged. -/
theorem C6_erase_semantics [DecidableEq α] (t : Trie α β) (k : List α)
    (hinv : t.m_size = countValues t.m_root)
    (hnd : nodupTree t.m_root = true) :
    ((t.erase k).1 = true ↔ (t.find k).isSome = true) ∧
    ((t.erase k).1 = true → (t.erase k).2.m_size + 1 = t.m_size) ∧
    ((t.erase k).1 = false → (t.erase k).2 = t) ∧
    ((t.erase k).1 = true →
      ((t.erase k).2.erase k).1 = false ∧
      ((t.erase k).2.erase k).2.m_size = (t.erase k).2.m_size) := by
  obtain ⟨rt, sz⟩ := t
  simp only at hinv hnd
  refine ⟨?_, ?_, ?_, ?_⟩
  · rw [find_eq_valueAtN]
    exact er_ok_iff k rt
  · intro hb
    simp only [Trie.erase] at hb
    have hc := er_count_of_true k rt hb
    simp only [Trie.erase, hb, if_true]
    omega
  · intro hb
    simp only [Trie.erase] at hb
    have h2 := er_false_eq k rt hb
    simp only [Trie.erase, hb, Bool.false_eq_true, if_false]
    rw [h2]
  · intro hb
    simp only [Trie.erase] at hb
    have hnone : valueAtN (erase_recursive rt k).2 k = none :=
      er_valueAt_none k rt hnd
    have hb2 : (erase_recursive (erase_recursive rt k).2 k).1 = false := by
      cases hx : (erase_recursive (erase_recursive rt k).2 k).1 with
      | false => rfl
      | true =>
        have := (er_ok_iff k (erase_recursive rt k).2).mp hx
        rw [hnone] at this
        simp at this
    constructor
    · exact hb2
    · simp only [Trie.erase, hb2, Bool.false_eq_true, if_false]

theorem C6_erase_semantics_witness :
    exTrie3.m_size = countValues exTrie3.m_root ∧
    nodupTree exTrie3.m_root = true ∧
    (((exTrie3.erase ['a']).1 = true ↔ (exTrie3.find ['a']).isSome = true) ∧
     ((exTrie3.erase ['a']).1 = true →
       (exTrie3.erase ['a']).2.m_size + 1 = exTrie3.m_size) ∧
     ((exTrie3.erase ['a']).1 = false → (exTrie3.erase ['a']).2 = exTrie3) ∧
     ((exTrie3.erase ['a']).1 = true →
       ((exTrie3.erase ['a']).2.erase ['a']).1 = false ∧
       ((exTrie3.erase ['a']).2.erase ['a']).2.m_size =
         (exTrie3.erase ['a']).2.m_size)) :=
  ⟨by decide, by decide,
   C6_erase_semantics exTrie3 ['a'] (by decide) (by decide)⟩

/-- C7 (confirmed): after `trie[k]`, `contains(k)` is true and the returned
reference designates the value stored at `k`; if no value was present, a
default-constructed value was created and `size` grew by exactly one,
otherwise the old value is returned and `size` is unchanged. -/
theorem C7_subscript_semantics [DecidableEq α] [Inhabited β] (t : Trie α β)
    (k : List α) (w : β) :
    (t.subscript k).2.contains k = true ∧
    Trie.find (t.subscript k).2 k = some (t.subscript k).1 ∧
    (t.find k = none →
      (t.subscript k).1 = (default : β) ∧
      (t.subscript k).2.m_size = t.m_size + 1) ∧
    (t.find k = some w →
      (t.subscript k).1 = w ∧ (t.subscript k).2.m_size = t.m_size) := by
  have hval := foi_valueAt k t.m_root
  refine ⟨?_, ?_, ?_, ?_⟩
  · show (find_node (find_or_insert_node t.m_root k).2.1 k).isSome = true
    exact find_node_isSome_of_valueAtN _ _ _ hval
  · rw [find_eq_valueAtN]
    exact hval
  · intro h0
    rw [find_eq_valueAtN] at h0
    refine ⟨foi_value_of_none k t.m_root h0, ?_⟩
    show (if (find_or_insert_node t.m_root k).2.2 then t.m_size + 1
        else t.m_size) = t.m_size + 1
    rw [if_pos ((foi_created_iff k t.m_root).mpr h0)]
  · intro hw
    rw [find_eq_valueAtN] at hw
    refine ⟨foi_value_of_some k t.m_root w hw, ?_⟩
    have hcr : (find_or_insert_node t.m_root k).2.2 = false := by
      cases hc2 : (find_or_insert_node t.m_root k).2.2 with
      | false => rfl
      | true =>
        have := (foi_created_iff k t.m_root).mp hc2
        rw [hw] at this
        simp at this
    show (if (find_or_insert_node t.m_root k).2.2 then t.m_size + 1
        else t.m_size) = t.m_size
    rw [hcr]
    simp

theorem C7_subscript_semantics_witness :
    ((charEmpty.subscript ['a']).2.contains ['a'] = true ∧
     Trie.find (charEmpty.subscript ['a']).2 ['a'] =
       some (charEmpty.subscript ['a']).1 ∧
     (charEmpty.find ['a'] = none →
       (charEmpty.subscript ['a']).1 = (default : Nat) ∧
       (charEmpty.subscript ['a']).2.m_size = charEmpty.m_size + 1) ∧
     (charEmpty.find ['a'] = some 7 →
       (charEmpty.subscript ['a']).1 = 7 ∧
       (charEmpty.subscript ['a']).2.m_size = charEmpty.m_size)) :=
  C7_subscript_semantics charEmpty ['a'] 7

/-- C8 (confirmed): `insert` stores its value and reports `inserted = true`
exactly when no value exists at the key's path; it never overwrites: a second
insert of the same key reports false and leaves the first value in place. -/
theorem C8_insert_if_absent [DecidableEq α] (t : Trie α β) (k : List α)
    (v1 v2 w : β) :
    (t.find k = none →
      (t.insertKV (k, v1)).1.2 = true ∧
      Trie.find (t.insertKV (k, v1)).2 k = some v1) ∧
    (t.find k = some w →
      (t.insertKV (k, v2)).1.2 = false ∧
      (t.insertKV (k, v2)).1.1 = w ∧
      Trie.find (t.insertKV (k, v2)).2 k = some w) ∧
    (t.find k = none →
      (Trie.insertKV (t.insertKV (k, v1)).2 (k, v2)).1.2 = false ∧
      Trie.find (Trie.insertKV (t.insertKV (k, v1)).2 (k, v2)).2 k =
        some v1) := by
  refine ⟨?_, ?_, ?_⟩
  · intro h0
    rw [find_eq_valueAtN] at h0
    refine ⟨(ins_inserted_iff v1 k t.m_root).mpr h0, ?_⟩
    rw [find_eq_valueAtN]
    show valueAtN (insert_node t.m_root v1 k).2 k = some v1
    rw [ins_valueAt, ins_result_of_none v1 k t.m_root h0]
  · intro hw
    rw [find_eq_valueAtN] at hw
    have hni : (insert_node t.m_root v2 k).1.2 = false := by
      cases hc : (insert_node t.m_root v2 k).1.2 with
      | false => rfl
      | true =>
        have := (ins_inserted_iff v2 k t.m_root).mp hc
        rw [hw] at this
        simp at this
    refine ⟨hni, ins_result_of_some v2 w k t.m_root hw, ?_⟩
    rw [find_eq_valueAtN]
    show valueAtN (insert_node t.m_root v2 k).2 k = some w
    rw [ins_valueAt, ins_result_of_some v2 w k t.m_root hw]
  · intro h0
    rw [find_eq_valueAtN] at h0
    have hfirst : valueAtN (insert_node t.m_root v1 k).2 k = some v1 := by
      rw [ins_valueAt, ins_result_of_none v1 k t.m_root h0]
    have hni : (insert_node (insert_node t.m_root v1 k).2 v2 k).1.2 =
        false := by
      cases hc : (insert_node (insert_node t.m_root v1 k).2 v2 k).1.2 with
      | false => rfl
      | true =>
        have := (ins_inserted_iff v2 k (insert_node t.m_root v1 k).2).mp hc
        rw [hfirst] at this
        simp at this
    have hsz : (Trie.insertKV (t.insertKV (k, v1)).2 (k, v2)).1.2 = false :=
      hni
    refine ⟨hsz, ?_⟩
    rw [find_eq_valueAtN]
    show valueAtN (insert_node (insert_node t.m_root v1 k).2 v2 k).2 k =
      some v1
    rw [ins_valueAt,
      ins_result_of_some v2 v1 k (insert_node t.m_root v1 k).2 hfirst]

theorem C8_insert_if_absent_witness :
    ((charEmpty.find ['a'] = none →
      (charEmpty.insertKV (['a'], 4)).1.2 = true ∧
      Trie.find (charEmpty.insertKV (['a'], 4)).2 ['a'] = some 4) ∧
     (charEmpty.find ['a'] = some 9 →
      (charEmpty.insertKV (['a'], 5)).1.2 = false ∧
      (charEmpty.insertKV (['a'], 5)).1.1 = 9 ∧
      Trie.find (charEmpty.insertKV (['a'], 5)).2 ['a'] = some 9) ∧
     (charEmpty.find ['a'] = none →
      (Trie.insertKV (charEmpty.insertKV (['a'], 4)).2 (['a'], 5)).1.2 =
        false ∧
      Trie.find (Trie.insertKV (charEmpty.insertKV (['a'], 4)).2
        (['a'], 5)).2 ['a'] = some 4)) :=
  C8_insert_if_absent charEmpty ['a'] 4 5 9

/-- C9 (confirmed): `at(k)` fails with the KeyNotFound error exactly when no
value is stored at `k` (path missing or terminal valueless), and returns the
stored value otherwise; it is a pure read (modelled as a function of the trie
only — `Trie::at` reads through `find_node` and performs no mutation). -/
theorem C9_at_semantics [DecidableEq α] (t : Trie α β) (k : List α) (v : β) :
    (t.atKey k = Except.error "Key not found in Trie" ↔ t.find k = none) ∧
    (t.atKey k = Except.ok v ↔ t.find k = some v) := by
  unfold Trie.atKey Trie.find
  cases find_node t.m_root k with
  | none => simp
  | some n =>
    cases hv : n.opt_value with
    | none => simp [hv]
    | some w => simp [hv]

/-- C10 (confirmed, implicit behavior): `contains(k)` is exactly node
existence at `k`'s path — so it is true for every proper prefix of a stored
key, true for the empty key in every state, and true for the empty key in the
freshly constructed trie. -/
theorem C10_contains_is_path_existence [DecidableEq α] (t : Trie α β)
    (k p q : List α) (s0 : α) (hq : q ≠ [])
    (hstored : (Trie.find t (p ++ q)).isSome = true) :
    t.contains k = (find_node t.m_root k).isSome ∧
    t.contains p = true ∧
    t.contains [] = true ∧
    (Trie.mkEmpty s0 : Trie α β).contains [] = true := by
  refine ⟨rfl, ?_, rfl, rfl⟩
  rw [find_eq_valueAtN] at hstored
  obtain ⟨w, hw⟩ := Option.isSome_iff_exists.mp hstored
  have h1 : (find_node t.m_root (p ++ q)).isSome = true :=
    find_node_isSome_of_valueAtN _ _ _ hw
  rw [find_node_append] at h1
  show (find_node t.m_root p).isSome = true
  cases hfp : find_node t.m_root p with
  | none => rw [hfp] at h1; simp at h1
  | some m => rfl

theorem C10_contains_is_path_existence_witness :
    (['b'] : List Char) ≠ [] ∧
    (Trie.find exTrie3 (['a'] ++ ['b'])).isSome = true ∧
    (exTrie3.contains ['b'] = (find_node exTrie3.m_root ['b']).isSome ∧
     exTrie3.contains ['a'] = true ∧
     exTrie3.contains [] = true ∧
     (Trie.mkEmpty (Char.ofNat 0) : Trie Char Nat).contains [] = true) :=
  ⟨by decide, by decide,
   C10_contains_is_path_existence exTrie3 ['b'] ['a'] ['b'] (Char.ofNat 0)
     (by decide) (by decide)⟩

end MguidTrie
